import Mathlib

/-!
Verification of the workspace version manager (`scripts/version-manager.py`).

The Python tool maintains a workspace index `self.packages : Dict[str, PackageInfo]`
and offers: version display, consistency checking, version updates (single and
bulk), semantic-version validation and bumping, a DFS-based dependency ordering,
and release-note generation.  Python dicts preserve insertion order, so the index
is modelled as an association list `List (String × PackageInfo)`; strings handled
character-by-character are modelled as `List Char`.
-/

namespace VersionManager

/-- One workspace member, as discovered from its manifest: the dataclass
`PackageInfo(name, path, version, dependencies)` in the source. -/
structure PackageInfo where
  name : String
  path : String
  version : String
  dependencies : List String
deriving DecidableEq, Repr

/-- The workspace index `self.packages : Dict[str, PackageInfo]`, modelled as an
association list in insertion order. -/
abbrev Index := List (String × PackageInfo)

/-- `get_current_versions`: the name → version mapping
(`{name: pkg.version for name, pkg in self.packages.items()}`). -/
def get_current_versions (pkgs : Index) : List (String × String) :=
  pkgs.map (fun p => (p.1, p.2.version))

/-- `check_version_consistency`: build the set of distinct versions
(`set(pkg.version for pkg in self.packages.values())`, modelled as `dedup`);
if it has exactly one element, return `(True, [])`; otherwise return `False`
together with every package rendered as `"name: version"`. -/
def check_version_consistency (pkgs : Index) : Bool × List String :=
  let versions := (pkgs.map (fun p => p.2.version)).dedup
  if versions.length = 1 then (true, [])
  else (false, pkgs.map (fun p => p.1 ++ ": " ++ p.2.version))

/-! ### Character-string utilities (Python `str.split`, `str.strip`) -/

/-- Python `s.split(sep)` for a one-character separator: splits at every
occurrence, keeping empty pieces (`"a..b".split('.') == ["a","","b"]`). -/
def splitOnChar (c : Char) : List Char → List (List Char)
  | [] => [[]]
  | x :: xs =>
    if x = c then [] :: splitOnChar c xs
    else
      match splitOnChar c xs with
      | [] => [[x]]
      | p :: ps => (x :: p) :: ps

/-- Rejoin pieces with a one-character separator (inverse of `splitOnChar`). -/
def joinSep (c : Char) : List (List Char) → List Char
  | [] => []
  | [p] => p
  | p :: ps => p ++ c :: joinSep c ps

/-! ### `validate_version` and `bump_version` -/

/-- The character class `[a-zA-Z0-9]` (`Char.isAlpha`/`isDigit` are ASCII). -/
def isAlnumAscii (c : Char) : Bool := c.isDigit || c.isAlpha

/-- Match `\d+` at the front of the input; on success return what follows. -/
def matchNum (s : List Char) : Option (List Char) :=
  if s.takeWhile Char.isDigit = [] then none else some (s.dropWhile Char.isDigit)

/-- Match one literal character at the front of the input. -/
def matchLit (c : Char) : List Char → Option (List Char)
  | x :: xs => if x = c then some xs else none
  | [] => none

/-- Match `[a-zA-Z0-9]+(\.[a-zA-Z0-9]+)*` against the whole input: every
dot-separated piece must be a nonempty alphanumeric run. -/
def matchPre (s : List Char) : Bool :=
  (splitOnChar '.' s).all (fun p => decide (p ≠ []) && p.all isAlnumAscii)

/-- The validation pattern `^\d+\.\d+\.\d+(-[a-zA-Z0-9]+(\.[a-zA-Z0-9]+)*)?$`
under its plain anchored, ASCII reading: exactly the specification's
`MAJOR.MINOR.PATCH[-PRERELEASE]` language with non-negative integer
components.  `validate_version_py` below is the embedding of the source's
`re.match`, whose Python semantics also lets `$` match just before one final
newline and makes `\d` match every Unicode decimal digit; that full matcher
accepts a superset of this language.  `bump_version`'s arithmetic is analysed
on this sublanguage.  The matcher is deterministic-greedy, which is exact here
because each repeated class is disjoint from the literal that follows it. -/
def validate_version (s : List Char) : Bool :=
  match (((matchNum s).bind (matchLit '.') |>.bind matchNum) |>.bind (matchLit '.')
      |>.bind matchNum) with
  | some [] => true
  | some ('-' :: r) => matchPre r
  | _ => false

/-- Value of a digit string, as Python `int` computes it (base 10). -/
def digitsVal (s : List Char) : Nat :=
  s.foldl (fun n c => 10 * n + (c.toNat - '0'.toNat)) 0

/-- Python `int(s)`, modelled on the inputs reachable here: a nonempty run of
ASCII digits (leading zeros allowed) parses; everything else raises, modelled
as `none`. -/
def pyInt? (s : List Char) : Option Nat :=
  if s ≠ [] ∧ s.all Char.isDigit then some (digitsVal s) else none

/-- `bump_version`: drop any pre-release suffix (`split('-')[0]`), split the rest
on `.` into exactly three integer parts, and rebuild the bumped string with an
f-string.  Python raises on a parse failure or an unknown bump type; both are
modelled as `none`. -/
def bump_version (bump_type : String) (current_version : List Char) : Option (List Char) :=
  match splitOnChar '.' (current_version.takeWhile (fun c => c ≠ '-')) with
  | [a, b, c] =>
    match pyInt? a, pyInt? b, pyInt? c with
    | some major, some minor, some patch =>
      if bump_type = "major" then
        some ((Nat.repr (major + 1)).data ++ ".0.0".data)
      else if bump_type = "minor" then
        some ((Nat.repr major).data ++ ".".data ++ (Nat.repr (minor + 1)).data ++ ".0".data)
      else if bump_type = "patch" then
        some ((Nat.repr major).data ++ ".".data ++ (Nat.repr minor).data ++ ".".data
          ++ (Nat.repr (patch + 1)).data)
      else none
    | _, _, _ => none
  | _ => none

/-- A nonempty ASCII digit run (`\d+`). -/
def IsNum (l : List Char) : Prop := l ≠ [] ∧ ∀ x ∈ l, x.isDigit = true

/-- A nonempty alphanumeric identifier (`[A-Za-z0-9]+`). -/
def IsIdent (l : List Char) : Prop := l ≠ [] ∧ ∀ x ∈ l, isAlnumAscii x = true

/-- The language of the pattern `^\d+\.\d+\.\d+(-[A-Za-z0-9]+(\.[A-Za-z0-9]+)*)?$`,
stated declaratively from the specification's words: three dot-separated digit
runs, optionally followed by `-` and a dot-separated list of alphanumeric
identifiers. -/
def VersionSpec (s : List Char) : Prop :=
  ∃ a b c rest, IsNum a ∧ IsNum b ∧ IsNum c ∧
    s = a ++ '.' :: (b ++ '.' :: (c ++ rest)) ∧
    (rest = [] ∨ ∃ parts : List (List Char),
      parts ≠ [] ∧ (∀ p ∈ parts, IsIdent p) ∧ rest = '-' :: joinSep '.' parts)

/-! ### The Version Writer: `update_version` and `update_all_versions`

File I/O is modelled by a write oracle `writeOk : String → Bool` telling whether
rewriting a given package's manifest succeeds; a failed write raises in Python,
modelled as `Except.error ()`.  Since the write happens before the in-memory
assignment, a failed write leaves the record unchanged. -/

/-- A package record with its version replaced, every other field kept. -/
def withVersion (e : String × PackageInfo) (v : String) : String × PackageInfo :=
  (e.1, { e.2 with version := v })

/-- `self.packages[package_name].version = new_version` on the association-list
model: the entry (or entries) whose key matches gets the new version. -/
def setVersion (st : Index) (name v : String) : Index :=
  st.map (fun e => if e.1 = name then withVersion e v else e)

/-- `update_version`: a missing package prints an error and returns `False`;
otherwise the manifest is rewritten (raising on failure, before the in-memory
update), the in-memory record's version is set, and the call returns `True`. -/
def update_version (writeOk : String → Bool) (name v : String) (st : Index) :
    Index × Except Unit Bool :=
  if (st.lookup name).isNone then (st, .ok false)
  else if writeOk name then (setVersion st name v, .ok true)
  else (st, .error ())

/-- Loop of `update_all_versions`: iterate over the key snapshot, letting an
exception propagate at once and otherwise recording any `False` result. -/
def update_all_go (writeOk : String → Bool) (v : String) :
    List String → Index → Bool → Index × Except Unit Bool
  | [], st, succ => (st, .ok succ)
  | n :: ns, st, succ =>
    match update_version writeOk n v st with
    | (st', .ok b) => update_all_go writeOk v ns st' (succ && b)
    | (st', .error e) => (st', .error e)

/-- `update_all_versions(new_version)`: run `update_version` for every key of
the index, starting from `success = True`. -/
def update_all_versions (writeOk : String → Bool) (v : String) (st : Index) :
    Index × Except Unit Bool :=
  update_all_go writeOk v (st.map Prod.fst) st true

/-- A three-package demonstration index (the specification's scenario
`{A: deps[B], B: deps[], C: deps[A,B]}`, all at version `0.1.0`). -/
def demoIndex : Index :=
  [("A", PackageInfo.mk "A" "pa" "0.1.0" ["B"]),
   ("B", PackageInfo.mk "B" "pb" "0.1.0" []),
   ("C", PackageInfo.mk "C" "pc" "0.1.0" ["A", "B"])]

/-- The version-independent part of a record: key, name, path, dependencies. -/
def eraseVersion (e : String × PackageInfo) : String × String × String × List String :=
  (e.1, e.2.name, e.2.path, e.2.dependencies)

/-! ### `generate_release_notes` -/

/-- Python `str.strip()`: drop leading and trailing whitespace (modelled with
`Char.isWhitespace`, which covers the whitespace reachable in git output). -/
def pyStrip (s : List Char) : List Char :=
  ((s.dropWhile Char.isWhitespace).reverse.dropWhile Char.isWhitespace).reverse

/-- The note returned when no prior tag exists or the log query fails:
`f"# Release {version}\n\n## Changes\n\n- 版本更新到 {version}\n"`. -/
def fallbackNotes (version : List Char) : List Char :=
  "# Release ".data ++ version ++ "\n\n## Changes\n\n- 版本更新到 ".data
    ++ version ++ "\n".data

/-- `generate_release_notes(version)`.  The two `subprocess.run` calls are
modelled as oracle inputs: `describe` is the stdout of
`git describe --tags --abbrev=0` when it exits 0 (`none` for a nonzero exit),
`log` likewise for `git log {last_tag}..HEAD --oneline`; a raised subprocess
exception is caught by the `try` and also reaches the fallback, so `none`
covers it too.  Each nonempty (after stripping) log line becomes one
`- {line}\n` bullet, after the title and "Changes since" header. -/
def generate_release_notes (version : List Char)
    (describe : Option (List Char)) (log : Option (List Char)) : List Char :=
  match describe with
  | some dOut =>
    match log with
    | some lOut =>
      "# Release ".data ++ version ++ "\n\n## Changes since ".data ++ pyStrip dOut
        ++ "\n\n".data
        ++ ((splitOnChar '\n' (pyStrip lOut)).map
            (fun c => if pyStrip c ≠ [] then "- ".data ++ c ++ "\n".data else [])).flatten
    | none => fallbackNotes version
  | none => fallbackNotes version

/-- The output shape claim C7 asserts for the successful path: an ordered
sequence of one-line bullet entries (one `- {line}\n` per nonempty log line)
followed by a title containing the version. -/
def BulletsThenTitle (version notes : List Char) (commits : List (List Char)) : Prop :=
  ∃ title : List Char,
    notes = (commits.map
        (fun c => if pyStrip c ≠ [] then "- ".data ++ c ++ "\n".data else [])).flatten
      ++ title ∧
    ∃ t1 t2, title = t1 ++ version ++ t2

/-! ### `get_dependency_order` (DFS post-order)

Python recursion is modelled with a fuel parameter: every recursion level
consumes one unvisited key, so the `pkgs.length` fuel supplied by
`get_dependency_order` never runs out — each theorem tracks the invariant
`unvisited pkgs s ≤ fuel`, which guarantees the fuel cutoff is never taken
while there is work to do. -/

/-- The key list of the index, in insertion order. -/
def keys (pkgs : Index) : List String := pkgs.map Prod.fst

/-- The internal dependencies of a package name (`[]` for unknown names; the
`visit` guard skips unknown names anyway). -/
def depsOf (pkgs : Index) (n : String) : List String :=
  match pkgs.lookup n with
  | some p => p.dependencies
  | none => []

/-- DFS state: the `visited` set and the accumulated post-order. -/
structure DfsState where
  visited : List String
  order : List String
deriving Repr, DecidableEq

/-- The nested `visit`: return at once for a visited or unknown name; otherwise
mark the name visited, visit each internal dependency, then append the name. -/
def visit (pkgs : Index) : Nat → String → DfsState → DfsState
  | 0, _, s => s
  | fuel + 1, n, s =>
    if n ∈ s.visited ∨ (pkgs.lookup n).isNone then s
    else
      DfsState.mk
        ((depsOf pkgs n).foldl (fun acc d => visit pkgs fuel d acc)
          ⟨n :: s.visited, s.order⟩).visited
        (((depsOf pkgs n).foldl (fun acc d => visit pkgs fuel d acc)
          ⟨n :: s.visited, s.order⟩).order ++ [n])

/-- `get_dependency_order`: visit every package key in index order. -/
def get_dependency_order (pkgs : Index) : List String :=
  ((keys pkgs).foldl (fun s n => visit pkgs pkgs.length n s) ⟨[], []⟩).order

/-- The fuel budget still needed: index keys not yet visited (deduplicated so
that marking one name visited lowers the count by exactly one). -/
def unvisited (pkgs : Index) (s : DfsState) : Nat :=
  ((keys pkgs).dedup.filter (fun k => k ∉ s.visited)).length

/-- DFS invariant, relative to the set `G` of names gray on the call stack: the
visited set is exactly the emitted order plus `G`; the order is duplicate-free,
disjoint from `G`, and contains only index keys. -/
def Inv (pkgs : Index) (G : List String) (s : DfsState) : Prop :=
  (∀ x, x ∈ s.visited ↔ (x ∈ s.order ∨ x ∈ G)) ∧
  s.order.Nodup ∧
  (∀ x ∈ s.order, x ∉ G) ∧
  (∀ x ∈ s.order, x ∈ keys pkgs)

/-- Dependency edge: `b` is an internal dependency of the index package `a`. -/
def DepEdge (pkgs : Index) (a b : String) : Prop :=
  a ∈ keys pkgs ∧ b ∈ depsOf pkgs a

/-- The internal-dependency relation has no cycle. -/
def Acyclic (pkgs : Index) : Prop := ∀ n, ¬ Relation.TransGen (DepEdge pkgs) n n

/-- Every in-index dependency of every listed package is listed strictly
earlier. -/
def TopoSorted (pkgs : Index) (l : List String) : Prop :=
  ∀ p ∈ l, ∀ d ∈ depsOf pkgs p, d ∈ keys pkgs →
    d ∈ l ∧ l.indexOf d < l.indexOf p

/-- The code-point ranges of the Unicode decimal digits (category `Nd`): the
character class Python's `\\d` matches in `re.match` on a `str`.  Taken from
the Unicode character database used by the CPython interpreter. -/
def ndRanges : List (Nat × Nat) :=
  [(48, 57), (1632, 1641), (1776, 1785), (1984, 1993),
   (2406, 2415), (2534, 2543), (2662, 2671), (2790, 2799),
   (2918, 2927), (3046, 3055), (3174, 3183), (3302, 3311),
   (3430, 3439), (3558, 3567), (3664, 3673), (3792, 3801),
   (3872, 3881), (4160, 4169), (4240, 4249), (6112, 6121),
   (6160, 6169), (6470, 6479), (6608, 6617), (6784, 6793),
   (6800, 6809), (6992, 7001), (7088, 7097), (7232, 7241),
   (7248, 7257), (42528, 42537), (43216, 43225), (43264, 43273),
   (43472, 43481), (43504, 43513), (43600, 43609), (44016, 44025),
   (65296, 65305), (66720, 66729), (68912, 68921), (69734, 69743),
   (69872, 69881), (69942, 69951), (70096, 70105), (70384, 70393),
   (70736, 70745), (70864, 70873), (71248, 71257), (71360, 71369),
   (71472, 71481), (71904, 71913), (72016, 72025), (72784, 72793),
   (73040, 73049), (73120, 73129), (92768, 92777), (92864, 92873),
   (93008, 93017), (120782, 120831), (123200, 123209), (123632, 123641),
   (125264, 125273), (130032, 130041)]

/-- Python's `\\d`: membership in the Unicode decimal-digit ranges. -/
def pyDigit (c : Char) : Bool :=
  ndRanges.any (fun r => r.1 ≤ c.toNat ∧ c.toNat ≤ r.2)

/-- Match `\\d+` (Python semantics) at the front; on success return the rest. -/
def matchNumPy (s : List Char) : Option (List Char) :=
  if s.takeWhile pyDigit = [] then none else some (s.dropWhile pyDigit)

/-- Remove one final newline if the input ends with one (the position where
Python's `$` may match besides the very end of the input). -/
def dropFinalNewline (s : List Char) : List Char :=
  match s.reverse with
  | '\n' :: t => t.reverse
  | _ => s

/-- Acceptance of what follows the third numeric component under Python
semantics: end of input, a lone final newline, or `-` followed by the
pre-release identifiers with `$` again allowed before one final newline.
Because newline is neither alphanumeric nor a dot, stripping one final newline
before the identifier check is exactly the regex behaviour. -/
def tailOkPy (v : List Char) : Bool :=
  match v with
  | [] => true
  | ['\n'] => true
  | '-' :: r => matchPre (dropFinalNewline r)
  | _ => false

/-- `validate_version` as the source executes it:
`bool(re.match(r'^\\d+\\.\\d+\\.\\d+(-[a-zA-Z0-9]+(\\.[a-zA-Z0-9]+)*)?$', version))`
with Python matching semantics (`\\d` = Unicode decimal digits, `$` matching at
the end or just before one final newline). -/
def validate_version_py (s : List Char) : Bool :=
  match (((matchNumPy s).bind (matchLit '.') |>.bind matchNumPy) |>.bind (matchLit '.')
      |>.bind matchNumPy) with
  | some v => tailOkPy v
  | none => false

/-- A nonempty run of Unicode decimal digits (Python `\\d+`). -/
def IsNumPy (l : List Char) : Prop := l ≠ [] ∧ ∀ x ∈ l, pyDigit x = true

/-- The language of the validation pattern under Python matching semantics,
stated declaratively: three dot-separated runs of Unicode decimal digits, an
optional `-`-introduced dot-separated list of ASCII-alphanumeric identifiers,
and an optional single final newline admitted by `$`. -/
def VersionSpecPy (s : List Char) : Prop :=
  ∃ a b c rest nl, IsNumPy a ∧ IsNumPy b ∧ IsNumPy c ∧
    (nl = [] ∨ nl = ['\n']) ∧
    s = a ++ '.' :: (b ++ '.' :: (c ++ (rest ++ nl))) ∧
    (rest = [] ∨ ∃ parts : List (List Char),
      parts ≠ [] ∧ (∀ p ∈ parts, IsIdent p) ∧ rest = '-' :: joinSep '.' parts)

/-! ## Theorems -/

theorem dedup_length_one_iff {l : List String} (h : l ≠ []) :
    l.dedup.length = 1 ↔ ∃ v, ∀ x ∈ l, x = v := by
  constructor
  · intro h1
    obtain ⟨v, hv⟩ : ∃ v, l.dedup = [v] := by
      match hd : l.dedup with
      | [] => rw [hd] at h1; simp at h1
      | [v] => exact ⟨v, rfl⟩
      | v :: w :: t => rw [hd] at h1; simp at h1
    refine ⟨v, fun x hx => ?_⟩
    have : x ∈ l.dedup := List.mem_dedup.mpr hx
    rw [hv] at this
    simpa using this
  · rintro ⟨v, hv⟩
    have hvl : v ∈ l := by
      match l, h with
      | x :: t, _ => exact (hv x (List.mem_cons_self x t)) ▸ List.mem_cons_self x t
    have hnd := l.nodup_dedup
    match hd : l.dedup with
    | [] =>
      exact absurd (List.mem_dedup.mpr hvl) (by rw [hd]; simp)
    | [w] => rfl
    | x :: y :: t =>
      exfalso
      have hx : x ∈ l := List.mem_dedup.mp (by rw [hd]; simp)
      have hy : y ∈ l := List.mem_dedup.mp (by rw [hd]; simp)
      have : x = y := (hv x hx).trans (hv y hy).symm
      rw [hd] at hnd
      simp [this] at hnd

/-- C2: `check_version_consistency` returns `(true, [])` iff the set of distinct
version strings has exactly one element; for a nonempty index that is equivalent
to all records sharing one version string; whenever the distinct-version count is
not one, the verdict is `false` and the mismatch list names every package, so its
length equals the package count. -/
theorem check_version_consistency_spec (pkgs : Index) :
    (check_version_consistency pkgs = (true, []) ↔
      ((pkgs.map (fun p => p.2.version)).dedup.length = 1)) ∧
    (pkgs ≠ [] →
      (((pkgs.map (fun p => p.2.version)).dedup.length = 1) ↔
        ∃ v, ∀ p ∈ pkgs, p.2.version = v)) ∧
    ((pkgs.map (fun p => p.2.version)).dedup.length ≠ 1 →
      (check_version_consistency pkgs).1 = false ∧
      (check_version_consistency pkgs).2.length = pkgs.length) := by
  refine ⟨?_, ?_, ?_⟩
  · unfold check_version_consistency
    by_cases h : (pkgs.map (fun p => p.2.version)).dedup.length = 1
    · simp [h]
    · simp [h]
  · intro hne
    rw [dedup_length_one_iff (by simpa using hne)]
    constructor
    · rintro ⟨v, hv⟩
      exact ⟨v, fun p hp => hv p.2.version (List.mem_map.mpr ⟨p, hp, rfl⟩)⟩
    · rintro ⟨v, hv⟩
      refine ⟨v, fun x hx => ?_⟩
      obtain ⟨p, hp, rfl⟩ := List.mem_map.mp hx
      exact hv p hp
  · intro h
    unfold check_version_consistency
    simp [h]

/-- Witness for C2 on a concrete two-package index with differing versions. -/
theorem check_version_consistency_spec_witness :
    ((([("a", PackageInfo.mk "a" "pa" "1.0.0" []),
        ("b", PackageInfo.mk "b" "pb" "2.0.0" [])] : Index).map
          (fun p => p.2.version)).dedup.length = 1 ↔
      ∃ v, ∀ p ∈ ([("a", PackageInfo.mk "a" "pa" "1.0.0" []),
        ("b", PackageInfo.mk "b" "pb" "2.0.0" [])] : Index), p.2.version = v) ∧
    (check_version_consistency [("a", PackageInfo.mk "a" "pa" "1.0.0" []),
        ("b", PackageInfo.mk "b" "pb" "2.0.0" [])]).1 = false ∧
    (check_version_consistency [("a", PackageInfo.mk "a" "pa" "1.0.0" []),
        ("b", PackageInfo.mk "b" "pb" "2.0.0" [])]).2.length =
      ([("a", PackageInfo.mk "a" "pa" "1.0.0" []),
        ("b", PackageInfo.mk "b" "pb" "2.0.0" [])] : Index).length :=
  ⟨(check_version_consistency_spec _).2.1 (by decide),
   (check_version_consistency_spec _).2.2 (by decide)⟩

/-- C10: on an empty workspace index, the distinct-version set is empty, so the
length-one test fails and `check_version_consistency` returns `(false, [])`. -/
theorem check_version_consistency_empty :
    check_version_consistency ([] : Index) = (false, []) := by
  decide

theorem splitOnChar_ne_nil (c : Char) (s : List Char) : splitOnChar c s ≠ [] := by
  induction s with
  | nil => simp [splitOnChar]
  | cons x xs ih =>
    simp only [splitOnChar]
    by_cases h : x = c
    · simp [h]
    · simp only [if_neg h]
      match hs : splitOnChar c xs with
      | [] => exact absurd hs ih
      | p :: ps => simp

theorem splitOnChar_no_sep {c : Char} {s : List Char} (h : ∀ x ∈ s, x ≠ c) :
    splitOnChar c s = [s] := by
  induction s with
  | nil => rfl
  | cons x xs ih =>
    have hx : x ≠ c := h x (by simp)
    have hrec : splitOnChar c xs = [xs] := ih (fun y hy => h y (by simp [hy]))
    simp [splitOnChar, if_neg hx, hrec]

theorem splitOnChar_append_cons {c : Char} {xs ys : List Char} (h : ∀ x ∈ xs, x ≠ c) :
    splitOnChar c (xs ++ c :: ys) = xs :: splitOnChar c ys := by
  induction xs with
  | nil => simp [splitOnChar]
  | cons x t ih =>
    have hx : x ≠ c := h x (by simp)
    have hrec := ih (fun y hy => h y (by simp [hy]))
    simp only [List.cons_append, splitOnChar, if_neg hx, List.append_eq, hrec]

theorem joinSep_splitOnChar (c : Char) (s : List Char) :
    joinSep c (splitOnChar c s) = s := by
  induction s with
  | nil => rfl
  | cons x xs ih =>
    simp only [splitOnChar]
    by_cases h : x = c
    · subst h
      simp only [if_pos rfl]
      match hs : splitOnChar x xs with
      | [] => exact absurd hs (splitOnChar_ne_nil x xs)
      | p :: ps =>
        rw [hs] at ih
        simp [joinSep, ih]
    · simp only [if_neg h]
      match hs : splitOnChar c xs with
      | [] => exact absurd hs (splitOnChar_ne_nil c xs)
      | [p] =>
        rw [hs] at ih
        simpa [joinSep] using ih
      | p :: q :: ps =>
        rw [hs] at ih
        simpa [joinSep] using ih

theorem splitOnChar_joinSep {c : Char} {parts : List (List Char)} (hne : parts ≠ [])
    (h : ∀ p ∈ parts, ∀ x ∈ p, x ≠ c) :
    splitOnChar c (joinSep c parts) = parts := by
  induction parts with
  | nil => exact absurd rfl hne
  | cons p ps ih =>
    match ps with
    | [] =>
      simpa [joinSep] using splitOnChar_no_sep (h p (by simp))
    | q :: t =>
      have hp : ∀ x ∈ p, x ≠ c := h p (by simp)
      have hrec : splitOnChar c (joinSep c (q :: t)) = q :: t :=
        ih (by simp) (fun r hr => h r (by simp [hr]))
      simp only [joinSep]
      rw [splitOnChar_append_cons hp, hrec]

theorem takeWhile_append_all {p : Char → Bool} {xs ys : List Char}
    (h : ∀ x ∈ xs, p x = true) :
    (xs ++ ys).takeWhile p = xs ++ ys.takeWhile p := by
  induction xs with
  | nil => rfl
  | cons x t ih =>
    have hx := h x (by simp)
    simp [List.takeWhile_cons, hx, ih (fun y hy => h y (by simp [hy]))]

theorem dropWhile_append_all {p : Char → Bool} {xs ys : List Char}
    (h : ∀ x ∈ xs, p x = true) :
    (xs ++ ys).dropWhile p = ys.dropWhile p := by
  induction xs with
  | nil => rfl
  | cons x t ih =>
    have hx := h x (by simp)
    simp [List.dropWhile_cons, hx, ih (fun y hy => h y (by simp [hy]))]

theorem takeWhile_cons_neg {p : Char → Bool} {y : Char} {ys : List Char}
    (h : p y = false) : (y :: ys).takeWhile p = [] := by
  simp [List.takeWhile_cons, h]

theorem dropWhile_cons_neg {p : Char → Bool} {y : Char} {ys : List Char}
    (h : p y = false) : (y :: ys).dropWhile p = y :: ys := by
  simp [List.dropWhile_cons, h]

theorem takeWhile_all {p : Char → Bool} {xs : List Char}
    (h : ∀ x ∈ xs, p x = true) : xs.takeWhile p = xs := by
  simpa using @takeWhile_append_all p xs [] h

theorem dropWhile_all {p : Char → Bool} {xs : List Char}
    (h : ∀ x ∈ xs, p x = true) : xs.dropWhile p = [] := by
  simpa using @dropWhile_append_all p xs [] h

theorem isDigit_ne_dot {x : Char} (h : x.isDigit = true) : x ≠ '.' := by
  rintro rfl
  exact absurd h (by decide)

theorem isDigit_ne_dash {x : Char} (h : x.isDigit = true) : x ≠ '-' := by
  rintro rfl
  exact absurd h (by decide)

theorem isAlnum_ne_dot {x : Char} (h : isAlnumAscii x = true) : x ≠ '.' := by
  rintro rfl
  exact absurd h (by decide)

theorem matchNum_eq_some {s r : List Char} (h : matchNum s = some r) :
    ∃ d, s = d ++ r ∧ d ≠ [] ∧ (∀ x ∈ d, x.isDigit = true) := by
  unfold matchNum at h
  split at h
  · exact absurd h (by simp)
  · rename_i hne
    obtain rfl : s.dropWhile Char.isDigit = r := Option.some.inj h
    exact ⟨s.takeWhile Char.isDigit, (List.takeWhile_append_dropWhile Char.isDigit s).symm,
      hne, fun x hx => List.mem_takeWhile_imp hx⟩

theorem matchNum_append {d r : List Char} (hd : d ≠ [])
    (hdig : ∀ x ∈ d, x.isDigit = true)
    (hr : r.takeWhile Char.isDigit = []) :
    matchNum (d ++ r) = some r := by
  have hdp : r.dropWhile Char.isDigit = r := by
    cases r with
    | nil => rfl
    | cons y ys =>
      cases hy : Char.isDigit y with
      | false => exact dropWhile_cons_neg hy
      | true => rw [List.takeWhile_cons, hy] at hr; simp at hr
  have ht : (d ++ r).takeWhile Char.isDigit = d := by
    rw [takeWhile_append_all hdig, hr, List.append_nil]
  have hdr : (d ++ r).dropWhile Char.isDigit = r := by
    rw [dropWhile_append_all hdig, hdp]
  unfold matchNum
  rw [ht, hdr]
  simp [hd]

theorem matchLit_eq_some {c : Char} {s r : List Char} (h : matchLit c s = some r) :
    s = c :: r := by
  cases s with
  | nil => simp [matchLit] at h
  | cons x xs =>
    simp only [matchLit] at h
    split at h
    · rename_i hx
      obtain rfl := Option.some.inj h
      rw [hx]
    · simp at h

theorem matchLit_self (c : Char) (r : List Char) : matchLit c (c :: r) = some r := by
  simp [matchLit]

theorem validate_chain_eq_some {s v : List Char}
    (h : ((((matchNum s).bind (matchLit '.')).bind matchNum).bind (matchLit '.')).bind
      matchNum = some v) :
    ∃ a b c, s = a ++ '.' :: (b ++ '.' :: (c ++ v)) ∧
      a ≠ [] ∧ (∀ x ∈ a, x.isDigit = true) ∧
      b ≠ [] ∧ (∀ x ∈ b, x.isDigit = true) ∧
      c ≠ [] ∧ (∀ x ∈ c, x.isDigit = true) := by
  rw [Option.bind_eq_some] at h
  obtain ⟨r4, h4, hm3⟩ := h
  rw [Option.bind_eq_some] at h4
  obtain ⟨r3, h3, hl2⟩ := h4
  rw [Option.bind_eq_some] at h3
  obtain ⟨r2, h2, hm2⟩ := h3
  rw [Option.bind_eq_some] at h2
  obtain ⟨r1, h1, hl1⟩ := h2
  obtain ⟨a, hs, hane, hadig⟩ := matchNum_eq_some h1
  obtain ⟨b, hr2, hbne, hbdig⟩ := matchNum_eq_some hm2
  obtain ⟨c, hr4, hcne, hcdig⟩ := matchNum_eq_some hm3
  have e1 := matchLit_eq_some hl1
  have e2 := matchLit_eq_some hl2
  refine ⟨a, b, c, ?_, hane, hadig, hbne, hbdig, hcne, hcdig⟩
  rw [hs, e1, hr2, e2, hr4]

theorem validate_version_decomp {s : List Char} (h : validate_version s = true) :
    ∃ a b c suf, s = a ++ '.' :: (b ++ '.' :: (c ++ suf)) ∧
      a ≠ [] ∧ (∀ x ∈ a, x.isDigit = true) ∧
      b ≠ [] ∧ (∀ x ∈ b, x.isDigit = true) ∧
      c ≠ [] ∧ (∀ x ∈ c, x.isDigit = true) ∧
      (suf = [] ∨ ∃ r, suf = '-' :: r ∧ matchPre r = true) := by
  unfold validate_version at h
  split at h
  · rename_i heq
    obtain ⟨a, b, c, hs, pa, da, pb, db, pc, dc⟩ := validate_chain_eq_some heq
    exact ⟨a, b, c, [], hs, pa, da, pb, db, pc, dc, Or.inl rfl⟩
  · rename_i r heq
    obtain ⟨a, b, c, hs, pa, da, pb, db, pc, dc⟩ := validate_chain_eq_some heq
    exact ⟨a, b, c, '-' :: r, hs, pa, da, pb, db, pc, dc, Or.inr ⟨r, rfl, h⟩⟩
  · simp at h

/-- After dropping everything from the first `-` on, a decomposed valid version
splits on `.` into exactly its three numeric components. -/
theorem split_core {a b c suf : List Char}
    (da : ∀ x ∈ a, x.isDigit = true) (db : ∀ x ∈ b, x.isDigit = true)
    (dc : ∀ x ∈ c, x.isDigit = true)
    (hsuf : suf = [] ∨ ∃ r, suf = '-' :: r) :
    splitOnChar '.'
      ((a ++ '.' :: (b ++ '.' :: (c ++ suf))).takeWhile (fun x => x ≠ '-')) =
      [a, b, c] := by
  have pa : ∀ x ∈ a, (fun x => decide (x ≠ '-')) x = true := by
    intro x hx
    simpa using isDigit_ne_dash (da x hx)
  have pb : ∀ x ∈ b, (fun x => decide (x ≠ '-')) x = true := by
    intro x hx
    simpa using isDigit_ne_dash (db x hx)
  have pc : ∀ x ∈ c, (fun x => decide (x ≠ '-')) x = true := by
    intro x hx
    simpa using isDigit_ne_dash (dc x hx)
  have hsuftw : suf.takeWhile (fun x => decide (x ≠ '-')) = [] := by
    rcases hsuf with rfl | ⟨r, rfl⟩
    · rfl
    · exact takeWhile_cons_neg (by simp)
  have htw : (a ++ '.' :: (b ++ '.' :: (c ++ suf))).takeWhile (fun x => decide (x ≠ '-')) =
      a ++ '.' :: (b ++ '.' :: c) := by
    rw [takeWhile_append_all pa, List.takeWhile_cons]
    simp only [decide_eq_true_eq]
    rw [if_pos (by decide)]
    rw [takeWhile_append_all pb, List.takeWhile_cons]
    simp only [decide_eq_true_eq]
    rw [if_pos (by decide)]
    rw [takeWhile_append_all pc, hsuftw, List.append_nil]
  rw [htw]
  rw [splitOnChar_append_cons (fun x hx => isDigit_ne_dot (da x hx))]
  rw [splitOnChar_append_cons (fun x hx => isDigit_ne_dot (db x hx))]
  rw [splitOnChar_no_sep (fun x hx => isDigit_ne_dot (dc x hx))]

theorem pyInt_of_digits {d : List Char} (hne : d ≠ []) (hd : ∀ x ∈ d, x.isDigit = true) :
    pyInt? d = some (digitsVal d) := by
  unfold pyInt?
  rw [if_pos ⟨hne, List.all_eq_true.mpr hd⟩]

/-- Common core of C3: every version accepted by `validate_version` decomposes
into three digit runs plus an optional `-`-suffix, and `bump_version` succeeds
on all three bump kinds with exactly the claimed component arithmetic. -/
theorem bump_version_of_valid {s : List Char} (h : validate_version s = true) :
    ∃ a b c suf, s = a ++ '.' :: (b ++ '.' :: (c ++ suf)) ∧
      (suf = [] ∨ ∃ r, suf = '-' :: r) ∧
      bump_version "major" s = some ((Nat.repr (digitsVal a + 1)).data ++ ".0.0".data) ∧
      bump_version "minor" s =
        some ((Nat.repr (digitsVal a)).data ++ ".".data
          ++ (Nat.repr (digitsVal b + 1)).data ++ ".0".data) ∧
      bump_version "patch" s =
        some ((Nat.repr (digitsVal a)).data ++ ".".data ++ (Nat.repr (digitsVal b)).data
          ++ ".".data ++ (Nat.repr (digitsVal c + 1)).data) := by
  obtain ⟨a, b, c, suf, hs, pa, da, pb, db, pc, dc, hsuf⟩ := validate_version_decomp h
  have hsuf' : suf = [] ∨ ∃ r, suf = '-' :: r := by
    rcases hsuf with h1 | ⟨r, hr, _⟩
    · exact Or.inl h1
    · exact Or.inr ⟨r, hr⟩
  have hsplit := split_core da db dc hsuf'
  refine ⟨a, b, c, suf, hs, hsuf', ?_, ?_, ?_⟩ <;>
    (unfold bump_version
     rw [hs, hsplit]
     dsimp only
     rw [pyInt_of_digits pa da, pyInt_of_digits pb db, pyInt_of_digits pc dc]
     simp)

/-- C3: for every version string passing validation and every bump kind,
`bump_version` succeeds; `major` yields `(major+1).0.0`, `minor` yields
`major.(minor+1).0`, `patch` yields `major.minor.(patch+1)`; the pre-release
suffix is always dropped and no lower-order component influences the result.
The four concrete examples from the specification are included. -/
theorem bump_version_spec :
    (∀ s : List Char, validate_version s = true →
      ∃ a b c suf, s = a ++ '.' :: (b ++ '.' :: (c ++ suf)) ∧
        (suf = [] ∨ ∃ r, suf = '-' :: r) ∧
        bump_version "major" s = some ((Nat.repr (digitsVal a + 1)).data ++ ".0.0".data) ∧
        bump_version "minor" s =
          some ((Nat.repr (digitsVal a)).data ++ ".".data
            ++ (Nat.repr (digitsVal b + 1)).data ++ ".0".data) ∧
        bump_version "patch" s =
          some ((Nat.repr (digitsVal a)).data ++ ".".data ++ (Nat.repr (digitsVal b)).data
            ++ ".".data ++ (Nat.repr (digitsVal c + 1)).data)) ∧
    bump_version "patch" "1.2.3".data = some "1.2.4".data ∧
    bump_version "minor" "1.2.3".data = some "1.3.0".data ∧
    bump_version "major" "1.2.3".data = some "2.0.0".data ∧
    bump_version "patch" "1.2.3-beta.1".data = some "1.2.4".data :=
  ⟨fun _ h => bump_version_of_valid h, by decide, by decide, by decide, by decide⟩

/-- Witness for C3 at the concrete valid version "1.2.3-beta.1". -/
theorem bump_version_spec_witness :
    ∃ a b c suf, "1.2.3-beta.1".data = a ++ '.' :: (b ++ '.' :: (c ++ suf)) ∧
      (suf = [] ∨ ∃ r, suf = '-' :: r) ∧
      bump_version "major" "1.2.3-beta.1".data =
        some ((Nat.repr (digitsVal a + 1)).data ++ ".0.0".data) ∧
      bump_version "minor" "1.2.3-beta.1".data =
        some ((Nat.repr (digitsVal a)).data ++ ".".data
          ++ (Nat.repr (digitsVal b + 1)).data ++ ".0".data) ∧
      bump_version "patch" "1.2.3-beta.1".data =
        some ((Nat.repr (digitsVal a)).data ++ ".".data ++ (Nat.repr (digitsVal b)).data
          ++ ".".data ++ (Nat.repr (digitsVal c + 1)).data) :=
  bump_version_spec.1 "1.2.3-beta.1".data (by decide)

theorem versionSpec_of_validate {s : List Char} (h : validate_version s = true) :
    VersionSpec s := by
  obtain ⟨a, b, c, suf, hs, pa, da, pb, db, pc, dc, hsuf⟩ := validate_version_decomp h
  refine ⟨a, b, c, suf, ⟨pa, da⟩, ⟨pb, db⟩, ⟨pc, dc⟩, hs, ?_⟩
  rcases hsuf with rfl | ⟨r, rfl, hpre⟩
  · exact Or.inl rfl
  · refine Or.inr ⟨splitOnChar '.' r, splitOnChar_ne_nil '.' r, ?_, ?_⟩
    · intro p hp
      have hall := List.all_eq_true.mp hpre p hp
      rw [Bool.and_eq_true, decide_eq_true_eq] at hall
      exact ⟨hall.1, List.all_eq_true.mp hall.2⟩
    · rw [joinSep_splitOnChar]

theorem validate_of_versionSpec {s : List Char} (h : VersionSpec s) :
    validate_version s = true := by
  obtain ⟨a, b, c, rest, ⟨pa, da⟩, ⟨pb, db⟩, ⟨pc, dc⟩, hs, hrest⟩ := h
  subst hs
  have h1 : matchNum (a ++ '.' :: (b ++ '.' :: (c ++ rest))) =
      some ('.' :: (b ++ '.' :: (c ++ rest))) :=
    matchNum_append pa da (takeWhile_cons_neg (by decide))
  have h3 : matchNum (b ++ '.' :: (c ++ rest)) = some ('.' :: (c ++ rest)) :=
    matchNum_append pb db (takeWhile_cons_neg (by decide))
  have hrtw : rest.takeWhile Char.isDigit = [] := by
    rcases hrest with rfl | ⟨parts, hne, hid, hr⟩
    · rfl
    · rw [hr]
      exact takeWhile_cons_neg (by decide)
  have h5 : matchNum (c ++ rest) = some rest := matchNum_append pc dc hrtw
  unfold validate_version
  rw [h1, Option.some_bind, matchLit_self, Option.some_bind, h3, Option.some_bind,
    matchLit_self, Option.some_bind, h5]
  rcases hrest with rfl | ⟨parts, hne, hid, hr⟩
  · rfl
  · rw [hr]
    have hnodot : ∀ p ∈ parts, ∀ x ∈ p, x ≠ '.' :=
      fun p hp x hx => isAlnum_ne_dot ((hid p hp).2 x hx)
    show matchPre (joinSep '.' parts) = true
    unfold matchPre
    rw [splitOnChar_joinSep hne hnodot]
    rw [List.all_eq_true]
    intro p hp
    rw [Bool.and_eq_true, decide_eq_true_eq]
    exact ⟨(hid p hp).1, List.all_eq_true.mpr (hid p hp).2⟩

theorem pyDigit_ne_dot {x : Char} (h : pyDigit x = true) : x ≠ '.' := by
  rintro rfl
  exact absurd h (by decide)

theorem matchNumPy_eq_some {s r : List Char} (h : matchNumPy s = some r) :
    ∃ d, s = d ++ r ∧ d ≠ [] ∧ (∀ x ∈ d, pyDigit x = true) := by
  unfold matchNumPy at h
  split at h
  · exact absurd h (by simp)
  · rename_i hne
    obtain rfl : s.dropWhile pyDigit = r := Option.some.inj h
    exact ⟨s.takeWhile pyDigit, (List.takeWhile_append_dropWhile pyDigit s).symm,
      hne, fun x hx => List.mem_takeWhile_imp hx⟩

theorem matchNumPy_append {d r : List Char} (hd : d ≠ [])
    (hdig : ∀ x ∈ d, pyDigit x = true)
    (hr : r.takeWhile pyDigit = []) :
    matchNumPy (d ++ r) = some r := by
  have hdp : r.dropWhile pyDigit = r := by
    cases r with
    | nil => rfl
    | cons y ys =>
      cases hy : pyDigit y with
      | false => exact dropWhile_cons_neg hy
      | true => rw [List.takeWhile_cons, hy] at hr; simp at hr
  have ht : (d ++ r).takeWhile pyDigit = d := by
    rw [takeWhile_append_all hdig, hr, List.append_nil]
  have hdr : (d ++ r).dropWhile pyDigit = r := by
    rw [dropWhile_append_all hdig, hdp]
  unfold matchNumPy
  rw [ht, hdr]
  simp [hd]

theorem validate_py_chain_eq_some {s v : List Char}
    (h : ((((matchNumPy s).bind (matchLit '.')).bind matchNumPy).bind (matchLit '.')).bind
      matchNumPy = some v) :
    ∃ a b c, s = a ++ '.' :: (b ++ '.' :: (c ++ v)) ∧
      a ≠ [] ∧ (∀ x ∈ a, pyDigit x = true) ∧
      b ≠ [] ∧ (∀ x ∈ b, pyDigit x = true) ∧
      c ≠ [] ∧ (∀ x ∈ c, pyDigit x = true) := by
  rw [Option.bind_eq_some] at h
  obtain ⟨r4, h4, hm3⟩ := h
  rw [Option.bind_eq_some] at h4
  obtain ⟨r3, h3, hl2⟩ := h4
  rw [Option.bind_eq_some] at h3
  obtain ⟨r2, h2, hm2⟩ := h3
  rw [Option.bind_eq_some] at h2
  obtain ⟨r1, h1, hl1⟩ := h2
  obtain ⟨a, hs, hane, hadig⟩ := matchNumPy_eq_some h1
  obtain ⟨b, hr2, hbne, hbdig⟩ := matchNumPy_eq_some hm2
  obtain ⟨c, hr4, hcne, hcdig⟩ := matchNumPy_eq_some hm3
  have e1 := matchLit_eq_some hl1
  have e2 := matchLit_eq_some hl2
  refine ⟨a, b, c, ?_, hane, hadig, hbne, hbdig, hcne, hcdig⟩
  rw [hs, e1, hr2, e2, hr4]

theorem tailOkPy_dash (r : List Char) :
    tailOkPy ('-' :: r) = matchPre (dropFinalNewline r) := rfl

theorem dropFinalNewline_append_newline (x : List Char) :
    dropFinalNewline (x ++ ['\n']) = x := by
  unfold dropFinalNewline
  rw [List.reverse_append, List.reverse_singleton, List.singleton_append]
  exact List.reverse_reverse x

theorem dropFinalNewline_of_not_mem {s : List Char} (h : '\n' ∉ s) :
    dropFinalNewline s = s := by
  unfold dropFinalNewline
  split
  · rename_i t hr
    exfalso
    apply h
    have hm : '\n' ∈ s.reverse := by rw [hr]; simp
    simpa using hm
  · rfl

theorem dropFinalNewline_decomp (r : List Char) :
    ∃ nl, (nl = [] ∨ nl = ['\n']) ∧ r = dropFinalNewline r ++ nl := by
  unfold dropFinalNewline
  split
  · rename_i t hr
    refine ⟨['\n'], Or.inr rfl, ?_⟩
    have hrr := congrArg List.reverse hr
    rw [List.reverse_reverse] at hrr
    rw [hrr]
    simp
  · exact ⟨[], Or.inl rfl, by simp⟩

theorem mem_joinSep {c : Char} {parts : List (List Char)} {x : Char}
    (h : x ∈ joinSep c parts) : x = c ∨ ∃ p ∈ parts, x ∈ p := by
  induction parts with
  | nil => simp [joinSep] at h
  | cons p ps ih =>
    cases ps with
    | nil =>
      right
      exact ⟨p, by simp, by simpa [joinSep] using h⟩
    | cons q t =>
      rw [show joinSep c (p :: q :: t) = p ++ c :: joinSep c (q :: t) from rfl] at h
      rcases List.mem_append.mp h with h1 | h1
      · right
        exact ⟨p, by simp, h1⟩
      · rcases List.mem_cons.mp h1 with rfl | h2
        · exact Or.inl rfl
        · rcases ih h2 with h3 | ⟨q', hq', hx⟩
          · exact Or.inl h3
          · right
            exact ⟨q', by simp [hq'], hx⟩

theorem versionSpecPy_of_validate {s : List Char} (h : validate_version_py s = true) :
    VersionSpecPy s := by
  unfold validate_version_py at h
  split at h
  · rename_i v heq
    obtain ⟨a, b, c, hs, pa, da, pb, db, pc, dc⟩ := validate_py_chain_eq_some heq
    unfold tailOkPy at h
    split at h
    · exact ⟨a, b, c, [], [], ⟨pa, da⟩, ⟨pb, db⟩, ⟨pc, dc⟩, Or.inl rfl,
        by simpa using hs, Or.inl rfl⟩
    · exact ⟨a, b, c, [], ['\n'], ⟨pa, da⟩, ⟨pb, db⟩, ⟨pc, dc⟩, Or.inr rfl,
        by simpa using hs, Or.inl rfl⟩
    · rename_i r
      obtain ⟨nl, hnl, hr⟩ := dropFinalNewline_decomp r
      set body := dropFinalNewline r with hbody
      refine ⟨a, b, c, '-' :: body, nl,
        ⟨pa, da⟩, ⟨pb, db⟩, ⟨pc, dc⟩, hnl, ?_, ?_⟩
      · rw [hs, hr]
        simp [List.cons_append]
      · refine Or.inr ⟨splitOnChar '.' (dropFinalNewline r),
          splitOnChar_ne_nil '.' (dropFinalNewline r), ?_, ?_⟩
        · intro p hp
          have hall := List.all_eq_true.mp h p hp
          rw [Bool.and_eq_true, decide_eq_true_eq] at hall
          exact ⟨hall.1, List.all_eq_true.mp hall.2⟩
        · rw [joinSep_splitOnChar]
    · simp at h
  · simp at h

theorem validate_of_versionSpecPy {s : List Char} (h : VersionSpecPy s) :
    validate_version_py s = true := by
  obtain ⟨a, b, c, rest, nl, ⟨pa, da⟩, ⟨pb, db⟩, ⟨pc, dc⟩, hnl, hs, hrest⟩ := h
  subst hs
  have h1 : matchNumPy (a ++ '.' :: (b ++ '.' :: (c ++ (rest ++ nl)))) =
      some ('.' :: (b ++ '.' :: (c ++ (rest ++ nl)))) :=
    matchNumPy_append pa da (takeWhile_cons_neg (by decide))
  have h3 : matchNumPy (b ++ '.' :: (c ++ (rest ++ nl))) =
      some ('.' :: (c ++ (rest ++ nl))) :=
    matchNumPy_append pb db (takeWhile_cons_neg (by decide))
  have hrtw : (rest ++ nl).takeWhile pyDigit = [] := by
    rcases hrest with rfl | ⟨parts, hne, hid, hr⟩
    · rcases hnl with rfl | rfl
      · rfl
      · exact takeWhile_cons_neg (by decide)
    · rw [hr, List.cons_append]
      exact takeWhile_cons_neg (by decide)
  have h5 : matchNumPy (c ++ (rest ++ nl)) = some (rest ++ nl) :=
    matchNumPy_append pc dc hrtw
  unfold validate_version_py
  rw [h1, Option.some_bind, matchLit_self, Option.some_bind, h3, Option.some_bind,
    matchLit_self, Option.some_bind, h5]
  show tailOkPy (rest ++ nl) = true
  rcases hrest with rfl | ⟨parts, hne, hid, hr⟩
  · rcases hnl with rfl | rfl
    · rfl
    · rfl
  · rw [hr, List.cons_append, tailOkPy_dash]
    have hnotmem : '\n' ∉ joinSep '.' parts := by
      intro hmem
      rcases mem_joinSep hmem with h1 | ⟨p, hp, hx⟩
      · exact absurd h1 (by decide)
      · exact absurd ((hid p hp).2 _ hx) (by decide)
    have hbody : dropFinalNewline (joinSep '.' parts ++ nl) = joinSep '.' parts := by
      rcases hnl with rfl | rfl
      · rw [List.append_nil]
        exact dropFinalNewline_of_not_mem hnotmem
      · exact dropFinalNewline_append_newline _
    rw [hbody]
    unfold matchPre
    rw [splitOnChar_joinSep hne (fun p hp x hx => isAlnum_ne_dot ((hid p hp).2 x hx))]
    rw [List.all_eq_true]
    intro p hp
    rw [Bool.and_eq_true, decide_eq_true_eq]
    exact ⟨(hid p hp).1, List.all_eq_true.mpr (hid p hp).2⟩

/-- C4 counterexample: the source's validator (Python `re.match`) returns True
on "1.0.0\n" — `$` matches just before one final newline — and on "١.٢.٣" —
`\d` matches Unicode decimal digits — although neither string belongs to the
claimed pattern's plain anchored-ASCII language. -/
theorem validate_version_py_counterexample :
    (validate_version_py "1.0.0\n".data = true ∧ ¬ VersionSpec "1.0.0\n".data) ∧
    (validate_version_py "١.٢.٣".data = true ∧ ¬ VersionSpec "١.٢.٣".data) := by
  refine ⟨⟨by decide, fun h => ?_⟩, ⟨by decide, fun h => ?_⟩⟩
  · exact absurd (validate_of_versionSpec h) (by decide)
  · exact absurd (validate_of_versionSpec h) (by decide)

/-- C4 as the code has it: `validate_version` accepts exactly the language of
`^\d+\.\d+\.\d+(-[A-Za-z0-9]+(\.[A-Za-z0-9]+)*)?$` under Python `re.match`
semantics, in which `\d` matches any Unicode decimal digit and `$` also
matches just before one final newline; in particular it accepts "1.0.0" and
"1.0.0-beta.1" (and "1.0.0\n" and "١.٢.٣") and rejects "1.0", "v1.0.0" and
"1.0.0-". -/
theorem validate_version_py_spec :
    (∀ s : List Char, validate_version_py s = true ↔ VersionSpecPy s) ∧
    validate_version_py "1.0.0".data = true ∧
    validate_version_py "1.0.0-beta.1".data = true ∧
    validate_version_py "1.0.0\n".data = true ∧
    validate_version_py "١.٢.٣".data = true ∧
    validate_version_py "1.0".data = false ∧
    validate_version_py "v1.0.0".data = false ∧
    validate_version_py "1.0.0-".data = false :=
  ⟨fun _ => ⟨versionSpecPy_of_validate, validate_of_versionSpecPy⟩,
   by decide, by decide, by decide, by decide, by decide, by decide, by decide⟩

theorem lookup_cons_eq {β : Type} (k : String) (b : β) (l : List (String × β)) :
    ((k, b) :: l).lookup k = some b := by
  simp [List.lookup]

theorem lookup_cons_ne {β : Type} {a k : String} (b : β) (l : List (String × β))
    (h : a ≠ k) : ((k, b) :: l).lookup a = l.lookup a := by
  have hbeq : (a == k) = false := beq_eq_false_iff_ne.mpr h
  simp [List.lookup, hbeq]

/-- Looking a key up after a key-preserving map rewrites just the found value. -/
theorem lookup_map_keyed {β γ : Type} (f : String × β → String × γ)
    (hf : ∀ e, (f e).1 = e.1) (l : List (String × β)) (a : String) :
    (l.map f).lookup a = (l.lookup a).map (fun b => (f (a, b)).2) := by
  induction l with
  | nil => rfl
  | cons e l ih =>
    obtain ⟨k, b⟩ := e
    have h1 : f (k, b) = (k, (f (k, b)).2) := Prod.ext_iff.mpr ⟨hf (k, b), rfl⟩
    by_cases hk : a = k
    · subst hk
      rw [List.map_cons, h1, lookup_cons_eq, lookup_cons_eq]
      rfl
    · rw [List.map_cons, h1, lookup_cons_ne _ _ hk, lookup_cons_ne _ _ hk, ih]

theorem lookup_isSome_iff_mem {st : Index} {name : String} :
    (st.lookup name).isSome = true ↔ name ∈ st.map Prod.fst := by
  induction st with
  | nil => simp [List.lookup]
  | cons e st ih =>
    obtain ⟨k, p⟩ := e
    by_cases hk : name = k
    · subst hk
      rw [lookup_cons_eq]
      simp
    · rw [lookup_cons_ne _ _ hk]
      simp [hk, ih]

theorem lookup_setVersion_self {st : Index} {name v : String} {p : PackageInfo}
    (h : st.lookup name = some p) :
    (setVersion st name v).lookup name = some { p with version := v } := by
  unfold setVersion
  rw [lookup_map_keyed (fun e => if e.1 = name then withVersion e v else e)
    (fun e => by by_cases he : e.1 = name <;> simp [withVersion, he]), h]
  simp [withVersion]

theorem lookup_setVersion_ne {st : Index} {name k v : String} (h : k ≠ name) :
    (setVersion st name v).lookup k = st.lookup k := by
  unfold setVersion
  rw [lookup_map_keyed (fun e => if e.1 = name then withVersion e v else e)
    (fun e => by by_cases he : e.1 = name <;> simp [withVersion, he])]
  have hb : ∀ b : PackageInfo, ((if ((k, b) : String × PackageInfo).1 = name
      then withVersion (k, b) v else (k, b))).2 = b := by
    intro b
    rw [if_neg h]
  simp only [hb]
  cases st.lookup k <;> rfl

theorem lookup_get_current_versions {st : Index} {name : String} :
    (get_current_versions st).lookup name = (st.lookup name).map PackageInfo.version := by
  unfold get_current_versions
  exact lookup_map_keyed (fun p => (p.1, p.2.version)) (fun _ => rfl) st name

/-- C6: assuming the manifest write succeeds, `update_version` returns `True`
exactly when the package is a key of the index; on success the package's
current version (as `get_current_versions` reports it) becomes the new version
and every other record's lookup is untouched; for a missing package it returns
`False` and leaves the whole index unchanged. -/
theorem update_version_spec (writeOk : String → Bool) (name v : String) (st : Index)
    (hw : writeOk name = true) :
    ((update_version writeOk name v st).2 = Except.ok true ↔ name ∈ st.map Prod.fst) ∧
    (name ∈ st.map Prod.fst →
      (get_current_versions (update_version writeOk name v st).1).lookup name = some v ∧
      ∀ k, k ≠ name →
        ((update_version writeOk name v st).1).lookup k = st.lookup k) ∧
    (name ∉ st.map Prod.fst →
      update_version writeOk name v st = (st, Except.ok false)) := by
  refine ⟨?_, ?_, ?_⟩
  · by_cases hm : name ∈ st.map Prod.fst
    · have hsome : (st.lookup name).isSome = true := lookup_isSome_iff_mem.mpr hm
      obtain ⟨p, hp⟩ := Option.isSome_iff_exists.mp hsome
      have hred : update_version writeOk name v st = (setVersion st name v, Except.ok true) := by
        unfold update_version
        rw [if_neg (by rw [hp]; simp), if_pos hw]
      rw [hred]
      simp [hm]
    · have hn : st.lookup name = none := by
        cases hx : st.lookup name with
        | none => rfl
        | some q => exact absurd (lookup_isSome_iff_mem.mp (by rw [hx]; rfl)) hm
      have hred : update_version writeOk name v st = (st, Except.ok false) := by
        unfold update_version
        rw [if_pos (by rw [hn]; rfl)]
      rw [hred]
      simp [hm]
  · intro hm
    have hsome : (st.lookup name).isSome = true := lookup_isSome_iff_mem.mpr hm
    obtain ⟨p, hp⟩ := Option.isSome_iff_exists.mp hsome
    have hred : update_version writeOk name v st = (setVersion st name v, Except.ok true) := by
      unfold update_version
      rw [if_neg (by rw [hp]; simp), if_pos hw]
    rw [hred]
    constructor
    · rw [lookup_get_current_versions, lookup_setVersion_self hp]
      rfl
    · intro k hk
      exact lookup_setVersion_ne hk
  · intro hm
    have : st.lookup name = none := by
      cases hx : st.lookup name with
      | none => rfl
      | some q => exact absurd (lookup_isSome_iff_mem.mp (by rw [hx]; rfl)) hm
    unfold update_version
    rw [if_pos (by rw [this]; rfl)]

/-- Witness for C6: a two-package index, successful write, round trip on "B",
and failure on an absent package name. -/
theorem update_version_spec_witness :
    ((fun _ => true) : String → Bool) "B" = true ∧
    (("B" ∈ ([("A", PackageInfo.mk "A" "pa" "0.1.0" []),
        ("B", PackageInfo.mk "B" "pb" "0.1.0" [])] : Index).map Prod.fst) →
      (get_current_versions
        (update_version (fun _ => true) "B" "0.2.0"
          [("A", PackageInfo.mk "A" "pa" "0.1.0" []),
           ("B", PackageInfo.mk "B" "pb" "0.1.0" [])]).1).lookup "B" = some "0.2.0" ∧
      ∀ k, k ≠ "B" →
        ((update_version (fun _ => true) "B" "0.2.0"
          [("A", PackageInfo.mk "A" "pa" "0.1.0" []),
           ("B", PackageInfo.mk "B" "pb" "0.1.0" [])]).1).lookup k =
          ([("A", PackageInfo.mk "A" "pa" "0.1.0" []),
            ("B", PackageInfo.mk "B" "pb" "0.1.0" [])] : Index).lookup k) :=
  ⟨rfl, (update_version_spec (fun _ => true) "B" "0.2.0" _ rfl).2.1⟩

theorem setVersion_structure (st : Index) (name v : String) :
    (setVersion st name v).map eraseVersion = st.map eraseVersion := by
  unfold setVersion
  rw [List.map_map]
  apply List.map_congr_left
  intro e _
  by_cases h : e.1 = name <;> simp [Function.comp, h, withVersion, eraseVersion]

theorem update_version_structure (writeOk : String → Bool) (name v : String) (st : Index) :
    (update_version writeOk name v st).1.map eraseVersion = st.map eraseVersion := by
  unfold update_version
  split
  · rfl
  · split
    · exact setVersion_structure st name v
    · rfl

theorem update_all_go_structure (writeOk : String → Bool) (v : String) (names : List String)
    (st : Index) (succ : Bool) :
    (update_all_go writeOk v names st succ).1.map eraseVersion = st.map eraseVersion := by
  induction names generalizing st succ with
  | nil => rfl
  | cons n ns ih =>
    have hst := update_version_structure writeOk n v st
    rcases hu : update_version writeOk n v st with ⟨st', r⟩
    rw [hu] at hst
    simp only [update_all_go]
    rw [hu]
    cases r with
    | ok b => exact (ih st' (succ && b)).trans hst
    | error e => exact hst

/-- C8: the mutating operations preserve the structure of the index: no entry
is added or removed, and every record keeps its name, path and dependency set —
stripping the version field commutes with `update_version` (any outcome,
including a failed write) and with `update_all_versions`. -/
theorem index_structure_preserved (writeOk : String → Bool) (name v : String) (st : Index) :
    (update_version writeOk name v st).1.map eraseVersion = st.map eraseVersion ∧
    (update_all_versions writeOk v st).1.map eraseVersion = st.map eraseVersion :=
  ⟨update_version_structure writeOk name v st,
   update_all_go_structure writeOk v (st.map Prod.fst) st true⟩

theorem keys_setVersion (st : Index) (n v : String) :
    (setVersion st n v).map Prod.fst = st.map Prod.fst := by
  unfold setVersion
  rw [List.map_map]
  apply List.map_congr_left
  intro e _
  by_cases h : e.1 = n <;> simp [Function.comp, h, withVersion]

theorem update_all_go_append (writeOk : String → Bool) (v : String) (rest : List String)
    (pre : List String) (st : Index) (succ : Bool)
    (h : ∀ n ∈ pre, writeOk n = true ∧ n ∈ st.map Prod.fst) :
    update_all_go writeOk v (pre ++ rest) st succ =
      update_all_go writeOk v rest (pre.foldl (fun s n => setVersion s n v) st) succ := by
  induction pre generalizing st succ with
  | nil => rfl
  | cons n ns ih =>
    obtain ⟨hw, hm⟩ := h n (List.mem_cons_self n ns)
    have hsome : (st.lookup n).isSome = true := lookup_isSome_iff_mem.mpr hm
    have hu : update_version writeOk n v st = (setVersion st n v, Except.ok true) := by
      unfold update_version
      rw [if_neg (by cases hx : st.lookup n <;> simp_all), if_pos hw]
    simp only [List.cons_append, update_all_go]
    rw [hu, List.foldl_cons]
    show update_all_go writeOk v (ns ++ rest) (setVersion st n v) (succ && true) = _
    rw [Bool.and_true]
    exact ih (setVersion st n v) succ (fun m hm' =>
      ⟨(h m (List.mem_cons_of_mem n hm')).1,
       by rw [keys_setVersion]; exact (h m (List.mem_cons_of_mem n hm')).2⟩)

theorem update_all_go_fail (writeOk : String → Bool) (v : String) (rest : List String)
    (f : String) (st : Index) (succ : Bool)
    (hm : f ∈ st.map Prod.fst) (hw : writeOk f = false) :
    update_all_go writeOk v (f :: rest) st succ = (st, Except.error ()) := by
  have hsome : (st.lookup f).isSome = true := lookup_isSome_iff_mem.mpr hm
  have hu : update_version writeOk f v st = (st, Except.error ()) := by
    unfold update_version
    rw [if_neg (by cases hx : st.lookup f <;> simp_all), if_neg (by rw [hw]; simp)]
  simp only [update_all_go]
  rw [hu]

theorem foldl_setVersion_eq_map (v : String) (pre : List String) (st : Index) :
    pre.foldl (fun s n => setVersion s n v) st =
      st.map (fun e => if e.1 ∈ pre then withVersion e v else e) := by
  induction pre generalizing st with
  | nil => simp
  | cons n ns ih =>
    rw [List.foldl_cons, ih]
    unfold setVersion
    rw [List.map_map]
    apply List.map_congr_left
    intro e _
    by_cases h1 : e.1 = n
    · by_cases h2 : e.1 ∈ ns <;> simp [Function.comp, h1, h2, withVersion]
    · by_cases h2 : e.1 ∈ ns <;> simp [Function.comp, h1, h2, withVersion]

theorem getElem_mem_take_iff {l : List String} (hnd : l.Nodup) {i K : Nat}
    (hi : i < l.length) : l[i] ∈ l.take K ↔ i < K := by
  constructor
  · intro hmem
    obtain ⟨j, hj, hje⟩ := List.mem_iff_getElem.mp hmem
    rw [List.length_take, lt_min_iff] at hj
    rw [List.getElem_take] at hje
    have := (hnd.getElem_inj_iff).mp hje
    omega
  · intro hiK
    have hi' : i < (l.take K).length := by
      rw [List.length_take, lt_min_iff]
      exact ⟨hiK, hi⟩
    have he : (l.take K)[i] = l[i] := List.getElem_take l
    rw [← he]
    exact List.getElem_mem hi'

/-- C5: if, while `update_all_versions` walks the index in order, the write for
the package at position K fails (each earlier write succeeding), the exception
aborts the loop: packages before position K carry the new version and packages
from position K on are exactly as before — no rollback happens. -/
theorem update_all_versions_partial (writeOk : String → Bool) (v : String) (st : Index)
    (K : Nat) (hnd : (st.map Prod.fst).Nodup) (hK : K < st.length)
    (hpre : ∀ i, i < K → ∀ n, (st.map Prod.fst)[i]? = some n → writeOk n = true)
    (hfail : ∀ n, (st.map Prod.fst)[K]? = some n → writeOk n = false) :
    (update_all_versions writeOk v st).2 = Except.error () ∧
    ∀ i : Nat, (update_all_versions writeOk v st).1[i]? =
      if i < K then (st[i]?).map (fun e => withVersion e v) else st[i]? := by
  have hKk : K < (st.map Prod.fst).length := by simpa using hK
  have hsplit : st.map Prod.fst =
      (st.map Prod.fst).take K ++ (st.map Prod.fst)[K] :: (st.map Prod.fst).drop (K + 1) := by
    rw [← List.drop_eq_getElem_cons hKk, List.take_append_drop]
  have hfOk : writeOk ((st.map Prod.fst)[K]) = false :=
    hfail _ (List.getElem?_eq_getElem hKk)
  have hpreOk : ∀ n ∈ (st.map Prod.fst).take K, writeOk n = true ∧ n ∈ st.map Prod.fst := by
    intro n hn
    obtain ⟨j, hj, hje⟩ := List.mem_iff_getElem.mp hn
    rw [List.length_take, lt_min_iff] at hj
    refine ⟨?_, List.take_subset K _ hn⟩
    rw [List.getElem_take] at hje
    exact hje ▸ hpre j hj.1 _ (List.getElem?_eq_getElem hj.2)
  have hkeysK : (((st.map Prod.fst).take K).foldl (fun s n => setVersion s n v) st).map
      Prod.fst = st.map Prod.fst := by
    rw [foldl_setVersion_eq_map, List.map_map]
    apply List.map_congr_left
    intro e _
    by_cases h : e.1 ∈ (st.map Prod.fst).take K <;> simp [Function.comp, h, withVersion]
  have hrun : update_all_versions writeOk v st =
      (((st.map Prod.fst).take K).foldl (fun s n => setVersion s n v) st,
        Except.error ()) := by
    unfold update_all_versions
    conv_lhs => rw [hsplit]
    rw [update_all_go_append writeOk v _ _ st true hpreOk]
    apply update_all_go_fail
    · rw [hkeysK]
      exact List.getElem_mem hKk
    · exact hfOk
  rw [hrun]
  refine ⟨rfl, fun i => ?_⟩
  rw [foldl_setVersion_eq_map, List.getElem?_map]
  by_cases hi : i < st.length
  · have hi2 : i < (st.map Prod.fst).length := by simpa using hi
    have hie : st[i]? = some (st[i]) := List.getElem?_eq_getElem hi
    rw [hie]
    have hfst : (st[i]).1 = (st.map Prod.fst)[i] :=
      (List.getElem_map Prod.fst).symm
    by_cases hiK : i < K
    · rw [if_pos hiK]
      have hmem : (st[i]).1 ∈ (st.map Prod.fst).take K := by
        rw [hfst]
        exact (getElem_mem_take_iff hnd hi2).mpr hiK
      simp only [Option.map_some']
      rw [if_pos hmem]
    · rw [if_neg hiK]
      have hmem : (st[i]).1 ∉ (st.map Prod.fst).take K := by
        rw [hfst]
        rw [getElem_mem_take_iff hnd hi2]
        omega
      simp only [Option.map_some']
      rw [if_neg hmem]
  · have hnone : st[i]? = none := List.getElem?_eq_none (le_of_not_lt hi)
    rw [hnone]
    by_cases hiK : i < K <;> simp [hiK]

/-- Witness for C5 on the demonstration index with the write for "B"
(position 1) failing. -/
theorem update_all_versions_partial_witness :
    (update_all_versions (fun n => n != "B") "0.2.0" demoIndex).2 = Except.error () ∧
    (update_all_versions (fun n => n != "B") "0.2.0" demoIndex).1[0]? =
      (if 0 < 1 then (demoIndex[0]?).map (fun e => withVersion e "0.2.0")
       else demoIndex[0]?) ∧
    (update_all_versions (fun n => n != "B") "0.2.0" demoIndex).1[1]? =
      (if 1 < 1 then (demoIndex[1]?).map (fun e => withVersion e "0.2.0")
       else demoIndex[1]?) ∧
    (update_all_versions (fun n => n != "B") "0.2.0" demoIndex).1[2]? =
      (if 2 < 1 then (demoIndex[2]?).map (fun e => withVersion e "0.2.0")
       else demoIndex[2]?) := by
  have h := update_all_versions_partial (fun n => n != "B") "0.2.0" demoIndex 1
    (by decide) (by decide)
    (by
      intro i hi n hn
      obtain rfl : i = 0 := by omega
      simp [demoIndex] at hn
      subst hn
      decide)
    (by
      intro n hn
      simp [demoIndex] at hn
      subst hn
      decide)
  exact ⟨h.1, h.2 0, h.2 1, h.2 2⟩

/-- C7 counterexample: with a prior tag "v0.1.0" and the single log line
"abc fix bug", the generated note does not consist of bullet entries followed
by a title (it starts with the title header instead), and the fallback note is
not a single-line note (it spans several lines). -/
theorem generate_release_notes_counterexample :
    ¬ BulletsThenTitle "1.0.0".data
        (generate_release_notes "1.0.0".data (some "v0.1.0".data)
          (some "abc fix bug".data))
        (splitOnChar '\n' (pyStrip "abc fix bug".data)) ∧
    ¬ ((splitOnChar '\n' (generate_release_notes "1.0.0".data none none)).length ≤ 2) := by
  constructor
  · rintro ⟨t, heq, -⟩
    have h1 : (generate_release_notes "1.0.0".data (some "v0.1.0".data)
        (some "abc fix bug".data)).head? = some '#' := by decide
    rw [heq] at h1
    have hjoin : ((splitOnChar '\n' (pyStrip "abc fix bug".data)).map
        (fun c => if pyStrip c ≠ [] then "- ".data ++ c ++ "\n".data else [])).flatten
        = '-' :: " abc fix bug\n".data := by decide
    rw [hjoin, List.cons_append] at h1
    simp at h1
  · decide

/-- C7 as the code has it: given a prior tag and a successful log query, the
note is the title header containing the version, then a "Changes since" line
naming the stripped tag, then one bullet entry per nonempty log line; when the
tag or the log query is unavailable it is the fixed fallback note, which
contains the version; the function is total, so the operation never fails. -/
theorem generate_release_notes_spec (version dOut lOut : List Char) :
    generate_release_notes version (some dOut) (some lOut) =
      "# Release ".data ++ version ++ "\n\n## Changes since ".data ++ pyStrip dOut
        ++ "\n\n".data
        ++ ((splitOnChar '\n' (pyStrip lOut)).map
            (fun c => if pyStrip c ≠ [] then "- ".data ++ c ++ "\n".data else [])).flatten ∧
    generate_release_notes version none (some lOut) = fallbackNotes version ∧
    generate_release_notes version (some dOut) none = fallbackNotes version ∧
    generate_release_notes version none none = fallbackNotes version ∧
    (∃ t1 t2, fallbackNotes version = t1 ++ version ++ t2) := by
  refine ⟨rfl, rfl, rfl, rfl, "# Release ".data,
    "\n\n## Changes\n\n- 版本更新到 ".data ++ version ++ "\n".data, ?_⟩
  simp [fallbackNotes]

theorem length_filter_mono {p q : String → Bool} (h : ∀ x, p x = true → q x = true) :
    ∀ l : List String, (l.filter p).length ≤ (l.filter q).length := by
  intro l
  induction l with
  | nil => simp
  | cons x t ih =>
    simp only [List.filter_cons]
    by_cases hp : p x = true
    · rw [if_pos hp, if_pos (h x hp)]
      simpa using ih
    · rw [if_neg hp]
      by_cases hq : q x = true
      · rw [if_pos hq]
        exact le_trans ih (by simp)
      · rw [if_neg hq]
        exact ih

theorem unvisited_mono {pkgs : Index} {s s' : DfsState}
    (h : ∀ x ∈ s.visited, x ∈ s'.visited) :
    unvisited pkgs s' ≤ unvisited pkgs s := by
  apply length_filter_mono
  intro x hx
  simp only [decide_eq_true_eq] at hx ⊢
  exact fun hmem => hx (h x hmem)

theorem filter_not_mem_cons_length {l vis : List String} {a : String}
    (hnd : l.Nodup) (ha : a ∈ l) (hv : a ∉ vis) :
    (l.filter (fun k => k ∉ vis)).length =
      (l.filter (fun k => k ∉ a :: vis)).length + 1 := by
  induction l with
  | nil => simp at ha
  | cons x t ih =>
    rw [List.nodup_cons] at hnd
    rcases List.mem_cons.mp ha with rfl | hat
    · have hft : t.filter (fun k => decide (k ∉ vis)) =
          t.filter (fun k => decide (k ∉ a :: vis)) :=
        List.filter_congr (fun k hk => by
          have hka : k ≠ a := fun he => hnd.1 (he ▸ hk)
          simp [List.mem_cons, hka])
      rw [List.filter_cons, List.filter_cons]
      rw [if_pos (by simpa using hv), if_neg (by simp)]
      rw [List.length_cons, hft]
    · have hxa : x ≠ a := fun he => hnd.1 (he ▸ hat)
      rw [List.filter_cons, List.filter_cons]
      by_cases hxv : x ∈ vis
      · rw [if_neg (by simpa using hxv), if_neg (by simp [hxv])]
        exact ih hnd.2 hat
      · rw [if_pos (by simpa using hxv),
          if_pos (by
            simp only [decide_eq_true_eq, List.mem_cons]
            push_neg
            exact ⟨hxa, hxv⟩)]
        rw [List.length_cons, List.length_cons, ih hnd.2 hat]

theorem unvisited_le_length (pkgs : Index) (s : DfsState) :
    unvisited pkgs s ≤ pkgs.length := by
  unfold unvisited
  calc ((keys pkgs).dedup.filter (fun k => k ∉ s.visited)).length
      ≤ (keys pkgs).dedup.length := List.length_filter_le _ _
    _ ≤ (keys pkgs).length := (List.dedup_sublist (keys pkgs)).length_le
    _ = pkgs.length := by simp [keys]

theorem mem_keys_of_lookup_not_none {pkgs : Index} {n : String}
    (h : ¬ (pkgs.lookup n).isNone = true) : n ∈ keys pkgs := by
  apply lookup_isSome_iff_mem.mp
  cases hx : pkgs.lookup n with
  | none => rw [hx] at h; simp at h
  | some p => rfl

/-- Structural master lemma for `visit` (no acyclicity needed): it preserves
the invariant, only extends the order, only grows the visited set, and leaves
the argument visited whenever it is an index key. -/
theorem visit_struct (pkgs : Index) :
    ∀ fuel n G s, unvisited pkgs s ≤ fuel → Inv pkgs G s →
      Inv pkgs G (visit pkgs fuel n s) ∧
      (∃ t, (visit pkgs fuel n s).order = s.order ++ t) ∧
      (∀ x ∈ s.visited, x ∈ (visit pkgs fuel n s).visited) ∧
      (n ∈ keys pkgs → n ∈ (visit pkgs fuel n s).visited) := by
  intro fuel
  induction fuel with
  | zero =>
    intro n G s hfuel hinv
    refine ⟨hinv, ⟨[], (List.append_nil _).symm⟩, fun x hx => hx, ?_⟩
    intro hn
    have h0 : ((keys pkgs).dedup.filter (fun k => k ∉ s.visited)).length = 0 :=
      Nat.le_zero.mp hfuel
    rw [List.length_eq_zero] at h0
    by_contra hnv
    have hmem : n ∈ (keys pkgs).dedup.filter (fun k => k ∉ s.visited) :=
      List.mem_filter.mpr ⟨List.mem_dedup.mpr hn, by simpa using hnv⟩
    rw [h0] at hmem
    simp at hmem
  | succ fuel ih =>
    intro n G s hfuel hinv
    by_cases hc : n ∈ s.visited ∨ (pkgs.lookup n).isNone
    · have hv : visit pkgs (fuel + 1) n s = s := by
        unfold visit
        rw [if_pos hc]
      rw [hv]
      refine ⟨hinv, ⟨[], (List.append_nil _).symm⟩, fun x hx => hx, ?_⟩
      intro hn
      rcases hc with h | h
      · exact h
      · exact absurd (lookup_isSome_iff_mem.mpr hn) (by cases hx : pkgs.lookup n <;> simp_all)
    · push_neg at hc
      obtain ⟨hnv, hns⟩ := hc
      have hnk : n ∈ keys pkgs := mem_keys_of_lookup_not_none hns
      have hinv1 : Inv pkgs (n :: G) ⟨n :: s.visited, s.order⟩ := by
        obtain ⟨hiff, hnd, hdisj, hkeys⟩ := hinv
        refine ⟨?_, hnd, ?_, hkeys⟩
        · intro x
          simp only [List.mem_cons]
          rw [hiff x]
          tauto
        · intro x hx
          simp only [List.mem_cons]
          push_neg
          refine ⟨?_, hdisj x hx⟩
          rintro rfl
          exact hnv ((hiff x).mpr (Or.inl hx))
      have hfuel1 : unvisited pkgs ⟨n :: s.visited, s.order⟩ ≤ fuel := by
        have hdec := filter_not_mem_cons_length (List.nodup_dedup (keys pkgs))
          (List.mem_dedup.mpr hnk) hnv
        unfold unvisited at hfuel ⊢
        simp only [DfsState.visited] at hfuel ⊢
        omega
      have hfold : ∀ (ds : List String) (s' : DfsState),
          unvisited pkgs s' ≤ fuel → Inv pkgs (n :: G) s' →
          Inv pkgs (n :: G) (ds.foldl (fun acc d => visit pkgs fuel d acc) s') ∧
          (∃ t, (ds.foldl (fun acc d => visit pkgs fuel d acc) s').order =
            s'.order ++ t) ∧
          (∀ x ∈ s'.visited,
            x ∈ (ds.foldl (fun acc d => visit pkgs fuel d acc) s').visited) := by
        intro ds
        induction ds with
        | nil =>
          intro s' h1 h2
          exact ⟨h2, ⟨[], (List.append_nil _).symm⟩, fun x hx => hx⟩
        | cons d ds ihd =>
          intro s' h1 h2
          obtain ⟨hI, ⟨t1, ht1⟩, hmono, -⟩ := ih d (n :: G) s' h1 h2
          have hfuel' : unvisited pkgs (visit pkgs fuel d s') ≤ fuel :=
            le_trans (unvisited_mono hmono) h1
          obtain ⟨hI2, ⟨t2, ht2⟩, hmono2⟩ :=
            ihd (visit pkgs fuel d s') hfuel' hI
          rw [List.foldl_cons]
          exact ⟨hI2, ⟨t1 ++ t2, by rw [ht2, ht1, List.append_assoc]⟩,
            fun x hx => hmono2 x (hmono x hx)⟩
      obtain ⟨hI2, ⟨t2, ht2⟩, hmono2⟩ :=
        hfold (depsOf pkgs n) ⟨n :: s.visited, s.order⟩ hfuel1 hinv1
      have hvisit : visit pkgs (fuel + 1) n s =
          ⟨((depsOf pkgs n).foldl (fun acc d => visit pkgs fuel d acc)
              ⟨n :: s.visited, s.order⟩).visited,
            ((depsOf pkgs n).foldl (fun acc d => visit pkgs fuel d acc)
              ⟨n :: s.visited, s.order⟩).order ++ [n]⟩ := by
        rw [visit]
        rw [if_neg (by push_neg; exact ⟨hnv, hns⟩)]
      set s2 := (depsOf pkgs n).foldl (fun acc d => visit pkgs fuel d acc)
        ⟨n :: s.visited, s.order⟩ with hs2
      rw [hvisit]
      obtain ⟨hiff2, hnd2, hdisj2, hkeys2⟩ := hI2
      have hnnotord : n ∉ s2.order := fun hmem => by
        have := hdisj2 n hmem
        simp at this
      have hnG : n ∉ G := fun hG => hnv ((hinv.1 n).mpr (Or.inr hG))
      refine ⟨⟨?_, ?_, ?_, ?_⟩, ?_, ?_, ?_⟩
      · intro x
        rw [hiff2 x]
        simp only [List.mem_append, List.mem_cons, List.mem_singleton]
        tauto
      · rw [List.nodup_append]
        exact ⟨hnd2, List.nodup_singleton n, by
          intro x hx hx1
          rw [List.mem_singleton] at hx1
          exact hnnotord (hx1 ▸ hx)⟩
      · intro x hx
        rcases List.mem_append.mp hx with hx1 | hx1
        · have := hdisj2 x hx1
          simp only [List.mem_cons] at this
          push_neg at this
          exact this.2
        · rw [List.mem_singleton] at hx1
          exact hx1 ▸ hnG
      · intro x hx
        rcases List.mem_append.mp hx with hx1 | hx1
        · exact hkeys2 x hx1
        · rw [List.mem_singleton] at hx1
          exact hx1 ▸ hnk
      · have hord1 : s2.order = s.order ++ t2 := by
          simpa using ht2
        exact ⟨t2 ++ [n], by rw [hord1, List.append_assoc]⟩
      · intro x hx
        exact hmono2 x (by simp [hx])
      · intro _
        exact hmono2 n (by simp)

/-- The top-level loop of `get_dependency_order`, with no gray names. -/
theorem fold_visit_struct (pkgs : Index) (ns : List String) :
    ∀ s, Inv pkgs [] s →
      Inv pkgs [] (ns.foldl (fun acc k => visit pkgs pkgs.length k acc) s) ∧
      (∀ x ∈ s.visited,
        x ∈ (ns.foldl (fun acc k => visit pkgs pkgs.length k acc) s).visited) ∧
      (∀ k ∈ ns, k ∈ keys pkgs →
        k ∈ (ns.foldl (fun acc k => visit pkgs pkgs.length k acc) s).visited) := by
  induction ns with
  | nil =>
    intro s hinv
    exact ⟨hinv, fun x hx => hx, by simp⟩
  | cons m ns ihn =>
    intro s hinv
    obtain ⟨hI, -, hmono, hvisited⟩ :=
      visit_struct pkgs pkgs.length m [] s (unvisited_le_length pkgs s) hinv
    obtain ⟨hI2, hmono2, hall⟩ := ihn (visit pkgs pkgs.length m s) hI
    rw [List.foldl_cons]
    refine ⟨hI2, fun x hx => hmono2 x (hmono x hx), ?_⟩
    intro k hk hkk
    rcases List.mem_cons.mp hk with rfl | hk1
    · exact hmono2 k (hvisited hkk)
    · exact hall k hk1 hkk

/-- C9: on any workspace index — cyclic dependencies and dangling dependency
names included — `get_dependency_order` returns a permutation of the index
keys: every package name exactly once and nothing else. -/
theorem get_dependency_order_perm (pkgs : Index)
    (hnd : (pkgs.map Prod.fst).Nodup) :
    (get_dependency_order pkgs).Perm (pkgs.map Prod.fst) := by
  have hinv0 : Inv pkgs [] ⟨[], []⟩ := ⟨by simp, List.nodup_nil, by simp, by simp⟩
  obtain ⟨⟨hiff, hndo, -, hkeyso⟩, -, hall⟩ :=
    fold_visit_struct pkgs (keys pkgs) ⟨[], []⟩ hinv0
  unfold get_dependency_order
  rw [List.perm_ext_iff_of_nodup hndo hnd]
  intro a
  constructor
  · intro ha
    exact hkeyso a ha
  · intro ha
    have hav : a ∈ ((keys pkgs).foldl (fun acc k => visit pkgs pkgs.length k acc)
        ⟨[], []⟩).visited := hall a ha ha
    rcases (hiff a).mp hav with h | h
    · exact h
    · simp at h

/-- Witness for C9 on a cyclic two-package index (A and B depend on each
other). -/
theorem get_dependency_order_perm_witness :
    (get_dependency_order [("A", PackageInfo.mk "A" "pa" "0.1.0" ["B"]),
        ("B", PackageInfo.mk "B" "pb" "0.1.0" ["A"])]).Perm
      (([("A", PackageInfo.mk "A" "pa" "0.1.0" ["B"]),
        ("B", PackageInfo.mk "B" "pb" "0.1.0" ["A"])] : Index).map Prod.fst) :=
  get_dependency_order_perm _ (by decide)

theorem indexOf_append_self {l : List String} {n : String} (h : n ∉ l) :
    (l ++ [n]).indexOf n = l.length := by
  induction l with
  | nil => simp
  | cons x t ih =>
    have hx : x ≠ n := by
      rintro rfl
      exact h (List.mem_cons_self x t)
    rw [List.cons_append, List.indexOf_cons_ne _ hx,
      ih (fun hm => h (List.mem_cons_of_mem x hm)), List.length_cons]

theorem topoSorted_append {pkgs : Index} {l : List String} {n : String}
    (h : TopoSorted pkgs l) (hn : n ∉ l)
    (hdeps : ∀ d ∈ depsOf pkgs n, d ∈ keys pkgs → d ∈ l) :
    TopoSorted pkgs (l ++ [n]) := by
  intro p hp d hd hdk
  rcases List.mem_append.mp hp with hp1 | hp1
  · obtain ⟨hdl, hlt⟩ := h p hp1 d hd hdk
    refine ⟨List.mem_append.mpr (Or.inl hdl), ?_⟩
    rw [List.indexOf_append_of_mem hdl, List.indexOf_append_of_mem hp1]
    exact hlt
  · rw [List.mem_singleton] at hp1
    subst hp1
    have hdl := hdeps d hd hdk
    refine ⟨List.mem_append.mpr (Or.inl hdl), ?_⟩
    rw [List.indexOf_append_of_mem hdl, indexOf_append_self hn]
    exact List.indexOf_lt_length.mpr hdl

theorem inv_push {pkgs : Index} {G : List String} {s : DfsState} {n : String}
    (hinv : Inv pkgs G s) (hnv : n ∉ s.visited) :
    Inv pkgs (n :: G) ⟨n :: s.visited, s.order⟩ := by
  obtain ⟨hiff, hnd, hdisj, hkeys⟩ := hinv
  refine ⟨?_, hnd, ?_, hkeys⟩
  · intro x
    simp only [List.mem_cons]
    rw [hiff x]
    tauto
  · intro x hx
    simp only [List.mem_cons]
    push_neg
    refine ⟨?_, hdisj x hx⟩
    rintro rfl
    exact hnv ((hiff x).mpr (Or.inl hx))

theorem unvisited_push {pkgs : Index} {s : DfsState} {n : String} {fuel : Nat}
    (hnk : n ∈ keys pkgs) (hnv : n ∉ s.visited)
    (hfuel : unvisited pkgs s ≤ fuel + 1) :
    unvisited pkgs ⟨n :: s.visited, s.order⟩ ≤ fuel := by
  have hdec := filter_not_mem_cons_length (List.nodup_dedup (keys pkgs))
    (List.mem_dedup.mpr hnk) hnv
  unfold unvisited at hfuel ⊢
  simp only [DfsState.visited] at hfuel ⊢
  omega

/-- Fold form of `visit_struct` over a dependency list. -/
theorem fold_visit_visited (pkgs : Index) (fuel : Nat) (G : List String) :
    ∀ (ds : List String) (s' : DfsState),
      unvisited pkgs s' ≤ fuel → Inv pkgs G s' →
      Inv pkgs G (List.foldl (fun acc d => visit pkgs fuel d acc) s' ds) ∧
      (∀ x ∈ s'.visited,
        x ∈ (List.foldl (fun acc d => visit pkgs fuel d acc) s' ds).visited) ∧
      (∀ d ∈ ds, d ∈ keys pkgs →
        d ∈ (List.foldl (fun acc d => visit pkgs fuel d acc) s' ds).visited) ∧
      unvisited pkgs (List.foldl (fun acc d => visit pkgs fuel d acc) s' ds) ≤ fuel := by
  intro ds
  induction ds with
  | nil =>
    intro s' h1 h2
    exact ⟨h2, fun x hx => hx, by simp, h1⟩
  | cons d ds ihd =>
    intro s' h1 h2
    obtain ⟨hI, -, hmono, hdv⟩ := visit_struct pkgs fuel d G s' h1 h2
    have h1' : unvisited pkgs (visit pkgs fuel d s') ≤ fuel :=
      le_trans (unvisited_mono hmono) h1
    obtain ⟨hI2, hmono2, hall2, hfuel2⟩ := ihd (visit pkgs fuel d s') h1' hI
    rw [List.foldl_cons]
    refine ⟨hI2, fun x hx => hmono2 x (hmono x hx), ?_, hfuel2⟩
    intro e he hek
    rcases List.mem_cons.mp he with rfl | he1
    · exact hmono2 e (hdv hek)
    · exact hall2 e he1 hek

/-- Topological master lemma: under acyclicity, `visit` preserves the ordering
invariant.  `G` is the gray call stack: every gray name has a dependency path
to the name being visited, which is what rules out meeting a gray dependency. -/
theorem visit_topo (pkgs : Index) (hacyc : Acyclic pkgs) :
    ∀ fuel n G s, unvisited pkgs s ≤ fuel → Inv pkgs G s →
      TopoSorted pkgs s.order →
      (∀ g ∈ G, Relation.TransGen (DepEdge pkgs) g n) →
      TopoSorted pkgs (visit pkgs fuel n s).order := by
  intro fuel
  induction fuel with
  | zero =>
    intro n G s _ _ htopo _
    exact htopo
  | succ fuel ih =>
    intro n G s hfuel hinv htopo hgray
    by_cases hc : n ∈ s.visited ∨ (pkgs.lookup n).isNone
    · have hv : visit pkgs (fuel + 1) n s = s := by
        rw [visit]
        rw [if_pos hc]
      rw [hv]
      exact htopo
    · push_neg at hc
      obtain ⟨hnv, hns⟩ := hc
      have hnk : n ∈ keys pkgs := mem_keys_of_lookup_not_none hns
      have hinv1 : Inv pkgs (n :: G) ⟨n :: s.visited, s.order⟩ := inv_push hinv hnv
      have hfuel1 : unvisited pkgs ⟨n :: s.visited, s.order⟩ ≤ fuel :=
        unvisited_push hnk hnv hfuel
      have hfoldtopo : ∀ (ds : List String) (s' : DfsState),
          (∀ d ∈ ds, d ∈ depsOf pkgs n) →
          unvisited pkgs s' ≤ fuel → Inv pkgs (n :: G) s' →
          TopoSorted pkgs s'.order →
          TopoSorted pkgs
            (List.foldl (fun acc d => visit pkgs fuel d acc) s' ds).order := by
        intro ds
        induction ds with
        | nil =>
          intro s' _ _ _ ht
          exact ht
        | cons d ds ihd =>
          intro s' hds h1 h2 h3
          rw [List.foldl_cons]
          have hedge : DepEdge pkgs n d := ⟨hnk, hds d (by simp)⟩
          have hgray' : ∀ g ∈ n :: G, Relation.TransGen (DepEdge pkgs) g d := by
            intro g hg
            rcases List.mem_cons.mp hg with rfl | hgG
            · exact Relation.TransGen.single hedge
            · exact Relation.TransGen.tail (hgray g hgG) hedge
          have htopo' := ih d (n :: G) s' h1 h2 h3 hgray'
          obtain ⟨hI', -, hmono', -⟩ := visit_struct pkgs fuel d (n :: G) s' h1 h2
          exact ihd (visit pkgs fuel d s') (fun x hx => hds x (by simp [hx]))
            (le_trans (unvisited_mono hmono') h1) hI' htopo'
      obtain ⟨hI2, -, hdall, -⟩ :=
        fold_visit_visited pkgs fuel (n :: G) (depsOf pkgs n)
          ⟨n :: s.visited, s.order⟩ hfuel1 hinv1
      have htopo2 : TopoSorted pkgs
          ((depsOf pkgs n).foldl (fun acc d => visit pkgs fuel d acc)
            ⟨n :: s.visited, s.order⟩).order :=
        hfoldtopo (depsOf pkgs n) ⟨n :: s.visited, s.order⟩ (fun d hd => hd)
          hfuel1 hinv1 htopo
      have hvisit : visit pkgs (fuel + 1) n s =
          ⟨((depsOf pkgs n).foldl (fun acc d => visit pkgs fuel d acc)
              ⟨n :: s.visited, s.order⟩).visited,
            ((depsOf pkgs n).foldl (fun acc d => visit pkgs fuel d acc)
              ⟨n :: s.visited, s.order⟩).order ++ [n]⟩ := by
        rw [visit]
        rw [if_neg (by push_neg; exact ⟨hnv, hns⟩)]
      rw [hvisit]
      obtain ⟨hiff2, hnd2, hdisj2, hkeys2⟩ := hI2
      have hnord : n ∉ ((depsOf pkgs n).foldl (fun acc d => visit pkgs fuel d acc)
          ⟨n :: s.visited, s.order⟩).order := by
        intro hmem
        have := hdisj2 n hmem
        simp at this
      apply topoSorted_append htopo2 hnord
      intro d hd hdk
      have hdv := hdall d hd hdk
      rcases (hiff2 d).mp hdv with h | h
      · exact h
      · exfalso
        have hedge : DepEdge pkgs n d := ⟨hnk, hd⟩
        rcases List.mem_cons.mp h with rfl | hG
        · exact hacyc d (Relation.TransGen.single hedge)
        · exact hacyc d (Relation.TransGen.tail (hgray d hG) hedge)

theorem lookup_of_mem_nodup {pkgs : Index} (hnd : (pkgs.map Prod.fst).Nodup)
    {k : String} {p : PackageInfo} (h : (k, p) ∈ pkgs) :
    pkgs.lookup k = some p := by
  induction pkgs with
  | nil => simp at h
  | cons e t ih =>
    obtain ⟨k', q⟩ := e
    rw [List.map_cons, List.nodup_cons] at hnd
    rcases List.mem_cons.mp h with he | ht
    · injection he with h1 h2
      rw [h1, h2]
      exact lookup_cons_eq k' q t
    · have hk : k ≠ k' := by
        rintro rfl
        exact hnd.1 (List.mem_map.mpr ⟨(k, p), ht, rfl⟩)
      rw [lookup_cons_ne _ _ hk]
      exact ih hnd.2 ht

/-- C1: when the internal-dependency relation restricted to index keys is
acyclic, `get_dependency_order` places every in-index dependency strictly
before its dependent: for every package record and every dependency name of it
that is an index key, the dependency's position is strictly smaller. -/
theorem get_dependency_order_topological (pkgs : Index)
    (hnd : (pkgs.map Prod.fst).Nodup) (hacyc : Acyclic pkgs) :
    ∀ e ∈ pkgs, ∀ d ∈ e.2.dependencies, d ∈ pkgs.map Prod.fst →
      (get_dependency_order pkgs).indexOf d <
        (get_dependency_order pkgs).indexOf e.1 := by
  have hinv0 : Inv pkgs [] ⟨[], []⟩ := ⟨by simp, List.nodup_nil, by simp, by simp⟩
  have htopo0 : TopoSorted pkgs (DfsState.mk [] []).order := by
    intro p hp
    simp at hp
  have htop : ∀ (ns : List String) (s : DfsState), Inv pkgs [] s →
      TopoSorted pkgs s.order →
      TopoSorted pkgs
        (ns.foldl (fun acc k => visit pkgs pkgs.length k acc) s).order := by
    intro ns
    induction ns with
    | nil =>
      intro s _ ht
      exact ht
    | cons m ns ihn =>
      intro s hI ht
      rw [List.foldl_cons]
      have ht' := visit_topo pkgs hacyc pkgs.length m [] s
        (unvisited_le_length pkgs s) hI ht (by simp)
      obtain ⟨hI', -, -, -⟩ := visit_struct pkgs pkgs.length m [] s
        (unvisited_le_length pkgs s) hI
      exact ihn (visit pkgs pkgs.length m s) hI' ht'
  have htopoF := htop (keys pkgs) ⟨[], []⟩ hinv0 htopo0
  obtain ⟨⟨hiff, -, -, -⟩, -, hall⟩ := fold_visit_struct pkgs (keys pkgs) ⟨[], []⟩ hinv0
  intro e he d hd hdk
  have hPk : e.1 ∈ keys pkgs := List.mem_map.mpr ⟨e, he, rfl⟩
  have hPord : e.1 ∈ ((keys pkgs).foldl (fun acc k => visit pkgs pkgs.length k acc)
      ⟨[], []⟩).order := by
    rcases (hiff e.1).mp (hall e.1 hPk hPk) with h | h
    · exact h
    · simp at h
  have hdeps : d ∈ depsOf pkgs e.1 := by
    unfold depsOf
    rw [lookup_of_mem_nodup hnd (by simpa using he)]
    exact hd
  exact (htopoF e.1 hPord d hdeps hdk).2

/-- Acyclicity follows from any rank function that strictly drops along every
dependency edge. -/
theorem acyclic_of_rank (pkgs : Index) (f : String → Nat)
    (h : ∀ a b, DepEdge pkgs a b → f b < f a) : Acyclic pkgs := by
  intro n hn
  have hstep : ∀ {a b : String}, Relation.TransGen (DepEdge pkgs) a b → f b < f a := by
    intro a b hab
    induction hab with
    | single h1 => exact h _ _ h1
    | tail _ h1 ihb => exact lt_trans (h _ _ h1) ihb
  exact lt_irrefl _ (hstep hn)

/-- Witness for C1 on the acyclic demonstration index: B precedes A and both
precede C in the computed order. -/
theorem get_dependency_order_topological_witness :
    (get_dependency_order demoIndex).indexOf "B" <
      (get_dependency_order demoIndex).indexOf "A" ∧
    (get_dependency_order demoIndex).indexOf "A" <
      (get_dependency_order demoIndex).indexOf "C" := by
  have hacyc : Acyclic demoIndex := by
    apply acyclic_of_rank demoIndex
      (fun n => if n = "C" then 2 else if n = "A" then 1 else 0)
    rintro a b ⟨ha, hb⟩
    simp only [keys, demoIndex, List.map_cons, List.map_nil, List.mem_cons,
      List.not_mem_nil, or_false] at ha
    rcases ha with rfl | rfl | rfl
    · rw [show depsOf demoIndex "A" = ["B"] from by decide] at hb
      simp only [List.mem_singleton] at hb
      subst hb
      decide
    · rw [show depsOf demoIndex "B" = [] from by decide] at hb
      simp at hb
    · rw [show depsOf demoIndex "C" = ["A", "B"] from by decide] at hb
      simp only [List.mem_cons, List.not_mem_nil, or_false] at hb
      rcases hb with rfl | rfl <;> decide
  refine ⟨?_, ?_⟩
  · exact get_dependency_order_topological demoIndex (by decide) hacyc
      ("A", PackageInfo.mk "A" "pa" "0.1.0" ["B"]) (by decide) "B" (by decide) (by decide)
  · exact get_dependency_order_topological demoIndex (by decide) hacyc
      ("C", PackageInfo.mk "C" "pc" "0.1.0" ["A", "B"]) (by decide) "A" (by decide) (by decide)

end VersionManager
